import Mathlib

/-!
Verification of the Poker Equity Analyser hand evaluator and equity simulator.

Shallow embedding of `src/hand_evaluator.py`, `src/monte_carlo.py` and the
card primitives of `src/poker_engine.py`.  Cards are pairs of a rank
(2..14, Ace = 14) and a suit (0..3); ranks and suits are modelled as `ℕ`.
Python's `random.shuffle` is modelled by an explicit shuffle-oracle
parameter (a function from the trial index and the remaining cards to the
shuffled order); the shuffle performed inside the `Deck` constructor is
absorbed into the same oracle, since the only use of the deck order is as
input to the second shuffle.
-/

/-- A playing card: `rank` (2..14) and `suit` (0..3), from `poker_engine.Card`.
Two cards are equal iff both rank and suit match. -/
structure Card where
  rank : ℕ
  suit : ℕ
deriving DecidableEq, Repr

/-- The ten hand categories of `hand_evaluator.HandRank` (an `IntEnum`). -/
inductive HandRank
  | HIGH_CARD
  | PAIR
  | TWO_PAIR
  | THREE_OF_A_KIND
  | STRAIGHT
  | FLUSH
  | FULL_HOUSE
  | FOUR_OF_A_KIND
  | STRAIGHT_FLUSH
  | ROYAL_FLUSH
deriving DecidableEq, Repr

/-- The integer value of a `HandRank`, as in the Python `IntEnum`. -/
def HandRank.val : HandRank → ℕ
  | .HIGH_CARD => 0
  | .PAIR => 1
  | .TWO_PAIR => 2
  | .THREE_OF_A_KIND => 3
  | .STRAIGHT => 4
  | .FLUSH => 5
  | .FULL_HOUSE => 6
  | .FOUR_OF_A_KIND => 7
  | .STRAIGHT_FLUSH => 8
  | .ROYAL_FLUSH => 9

/-- Deduplication keeping the first occurrence of each element, the iteration
order of Python's `Counter`/`dict` keys. -/
def dedupFirst : List ℕ → List ℕ
  | [] => []
  | a :: l => a :: (dedupFirst l).filter (fun b => b ≠ a)

/-- Python `sorted(l, reverse=True)` on a list of naturals. -/
def sortDesc (l : List ℕ) : List ℕ :=
  l.insertionSort (· ≥ ·)

/-- Number of cards of suit `s`, the per-suit value of the Python
`Counter(card.suit for card in cards)`. -/
def suitCount (cards : List Card) (s : ℕ) : ℕ :=
  (cards.filter (fun c => c.suit = s)).length

/-- Number of cards of rank `r`, the per-rank value of the Python
`Counter(card.rank for card in cards)`. -/
def rankCount (cards : List Card) (r : ℕ) : ℕ :=
  (cards.filter (fun c => c.rank = r)).length

/-- Python `HandEvaluator._check_flush`: scan the suits in first-occurrence order,
and for the first suit with at least 5 cards return the top 5 ranks of that
suit in descending order; otherwise `none`. -/
def check_flush (cards : List Card) : Option (List ℕ) :=
  match (dedupFirst (cards.map Card.suit)).find? (fun s => 5 ≤ suitCount cards s) with
  | some s => some ((sortDesc ((cards.filter (fun c => c.suit = s)).map Card.rank)).take 5)
  | none => none

/-- The window scan of `HandEvaluator._check_straight`: on the deduplicated
descending rank list, return the first window head `u[i]` with
`u[i] - u[i+4] == 4`. -/
def windowScan : List ℕ → Option ℕ
  | a :: b :: c :: d :: e :: rest =>
      if a - e = 4 then some a else windowScan (b :: c :: d :: e :: rest)
  | _ => none

/-- Python `HandEvaluator._check_straight`: dedupe and sort the ranks descending;
fewer than 5 distinct ranks is no straight; otherwise scan for a window of
5 consecutive ranks, and failing that test the ace-low wheel
`{14, 2, 3, 4, 5}` (whose high card is 5). -/
def check_straight (ranks : List ℕ) : Option ℕ :=
  let u := sortDesc (dedupFirst ranks)
  if u.length < 5 then none
  else
    match windowScan u with
    | some h => some h
    | none => if ([14, 2, 3, 4, 5] : List ℕ).all (fun r => r ∈ u) then some 5 else none

/-- Python `HandEvaluator._check_pairs_and_sets`: partition the distinct ranks by
multiplicity into quads (4), triples (3), pairs (2) and kickers (anything
else, in practice multiplicity 1), each sorted descending. -/
def check_pairs_and_sets (cards : List Card) : List ℕ × List ℕ × List ℕ × List ℕ :=
  let distinctRanks := dedupFirst (cards.map Card.rank)
  (sortDesc (distinctRanks.filter (fun r => rankCount cards r = 4)),
   sortDesc (distinctRanks.filter (fun r => rankCount cards r = 3)),
   sortDesc (distinctRanks.filter (fun r => rankCount cards r = 2)),
   sortDesc (distinctRanks.filter
     (fun r => rankCount cards r ≠ 4 ∧ rankCount cards r ≠ 3 ∧ rankCount cards r ≠ 2)))

/-- The local `flush_ranks` of `evaluate_hand`; `None` and the (unreachable)
empty list are both falsy in Python, so the `Option` is collapsed to `[]`. -/
def flush_ranks (cards : List Card) : List ℕ :=
  (check_flush cards).getD []

/-- The local `straight_high` of `evaluate_hand`; `None` is falsy exactly like
`0`, and `_check_straight` never returns `0`, so the `Option` is collapsed
to `0`. -/
def straight_high (cards : List Card) : ℕ :=
  (check_straight (cards.map Card.rank)).getD 0

/-- The local `fours` of `evaluate_hand`. -/
def foursOf (cards : List Card) : List ℕ :=
  (check_pairs_and_sets cards).1

/-- The local `triples` of `evaluate_hand`. -/
def triplesOf (cards : List Card) : List ℕ :=
  (check_pairs_and_sets cards).2.1

/-- The local `pairs` of `evaluate_hand`. -/
def pairsOf (cards : List Card) : List ℕ :=
  (check_pairs_and_sets cards).2.2.1

/-- The local `kickers` of `evaluate_hand`. -/
def kickersOf (cards : List Card) : List ℕ :=
  (check_pairs_and_sets cards).2.2.2

/-- Python `HandEvaluator.evaluate_hand`: the priority-ordered classification of a
hand into `(HandRank, tiebreakers)`.  Each early `return` of the Python
if-chain is one branch of the nested `if`. -/
def evaluate_hand (cards : List Card) : HandRank × List ℕ :=
  if flush_ranks cards ≠ [] ∧ straight_high cards = 14 ∧
      (∀ r ∈ ([14, 13, 12, 11, 10] : List ℕ), r ∈ flush_ranks cards) then
    (HandRank.ROYAL_FLUSH, [14])
  else if flush_ranks cards ≠ [] ∧ straight_high cards ≠ 0 ∧
      (check_straight (flush_ranks cards)).getD 0 ≠ 0 then
    (HandRank.STRAIGHT_FLUSH, [(check_straight (flush_ranks cards)).getD 0])
  else if foursOf cards ≠ [] then
    (HandRank.FOUR_OF_A_KIND, foursOf cards ++ (kickersOf cards).take 1)
  else if triplesOf cards ≠ [] ∧ pairsOf cards ≠ [] then
    (HandRank.FULL_HOUSE, [(triplesOf cards).headD 0, (pairsOf cards).headD 0])
  else if 2 ≤ (triplesOf cards).length then
    (HandRank.FULL_HOUSE, (triplesOf cards).take 2)
  else if flush_ranks cards ≠ [] then
    (HandRank.FLUSH, flush_ranks cards)
  else if straight_high cards ≠ 0 then
    (HandRank.STRAIGHT, [straight_high cards])
  else if triplesOf cards ≠ [] then
    (HandRank.THREE_OF_A_KIND, triplesOf cards ++ (kickersOf cards).take 2)
  else if 2 ≤ (pairsOf cards).length then
    (HandRank.TWO_PAIR, (pairsOf cards).take 2 ++ (kickersOf cards).take 1)
  else if pairsOf cards ≠ [] then
    (HandRank.PAIR, pairsOf cards ++ (kickersOf cards).take 3)
  else
    (HandRank.HIGH_CARD, (sortDesc (cards.map Card.rank)).take 5)

/-- The tiebreaker loop of `HandEvaluator.compare_hands`: zip the two
sequences and decide on the first unequal pair; when either sequence is
exhausted the result is 0. -/
def cmpTiebreakers : List ℕ → List ℕ → Int
  | t1 :: r1, t2 :: r2 =>
      if t2 < t1 then 1 else if t1 < t2 then -1 else cmpTiebreakers r1 r2
  | _, _ => 0

/-- Python `HandEvaluator.compare_hands`: category (by `IntEnum` value) first, then
the tiebreaker sequences. -/
def compare_hands (h1 h2 : HandRank × List ℕ) : Int :=
  if h2.1.val < h1.1.val then 1
  else if h1.1.val < h2.1.val then -1
  else cmpTiebreakers h1.2 h2.2

/-- Python `HandEvaluator._get_straight_cards`: for each target rank of the straight
(the wheel selects `{14, 2, 3, 4, 5}`, otherwise the 5 consecutive ranks up
to `high_rank`, ascending), pick the first card of that rank. -/
def get_straight_cards (cards : List Card) (highRank : ℕ) : List Card :=
  let targetRanks : List ℕ :=
    if highRank = 5 then [14, 2, 3, 4, 5]
    else [highRank - 4, highRank - 3, highRank - 2, highRank - 1, highRank]
  targetRanks.flatMap (fun r => (cards.filter (fun c => c.rank = r)).take 1)

/-- The kicker-filling loop of the `THREE_OF_A_KIND` arm of
`get_best_five_card_hand`: append each card whose rank is in `ks`, stopping
as soon as the hand holds 5 cards. -/
def fillKickers (hand : List Card) (ks : List ℕ) : List Card → List Card
  | [] => hand
  | c :: rest =>
      let hand2 := if c.rank ∈ ks then hand ++ [c] else hand
      if hand2.length = 5 then hand2 else fillKickers hand2 ks rest

/-- The single-pass selection loop of the `TWO_PAIR` arm of
`get_best_five_card_hand` (`kicker_count` limits the kicker to one card). -/
def twoPairPick (p1 p2 k : ℕ) : List Card → Bool → List Card
  | [], _ => []
  | c :: rest, used =>
      if c.rank = p1 then c :: twoPairPick p1 p2 k rest used
      else if c.rank = p2 then c :: twoPairPick p1 p2 k rest used
      else if c.rank = k ∧ used = false then c :: twoPairPick p1 p2 k rest true
      else twoPairPick p1 p2 k rest used

/-- Python `HandEvaluator.get_best_five_card_hand`.  Python list indexing
`tiebreakers[i]` raises `IndexError` when out of range; those accesses are
the `Option` binds (`none` models the raised exception).  The `case _`
arm raising `ValueError` is unreachable because all ten categories have an
arm. -/
def get_best_five_card_hand (cards : List Card) : Option (List Card) :=
  let e := evaluate_hand cards
  let tiebreakers := e.2
  match e.1 with
  | .ROYAL_FLUSH | .STRAIGHT_FLUSH => do
      let flushSuit := (dedupFirst (cards.map Card.suit)).find? (fun s => 5 ≤ suitCount cards s)
      let flushCards : List Card :=
        match flushSuit with
        | some s => cards.filter (fun c => c.suit = s)
        | none => []
      let h ← tiebreakers.get? 0
      pure (get_straight_cards flushCards h)
  | .FOUR_OF_A_KIND => do
      let quadRank ← tiebreakers.get? 0
      let kickerRank ← tiebreakers.get? 1
      pure ((cards.filter (fun c => c.rank = quadRank)) ++
        (cards.filter (fun c => c.rank = kickerRank)).take 1)
  | .FULL_HOUSE => do
      let tripleRank ← tiebreakers.get? 0
      let pairRank ← tiebreakers.get? 1
      pure ((cards.filter (fun c => c.rank = tripleRank)) ++
        (cards.filter (fun c => c.rank = pairRank)).take 2)
  | .FLUSH => do
      let flushSuit := (dedupFirst (cards.map Card.suit)).find? (fun s => 5 ≤ suitCount cards s)
      let flushCards : List Card :=
        match flushSuit with
        | some s => cards.filter (fun c => c.suit = s)
        | none => []
      pure ((flushCards.insertionSort (fun c1 c2 => c1.rank ≥ c2.rank)).take 5)
  | .STRAIGHT => do
      let h ← tiebreakers.get? 0
      pure (get_straight_cards cards h)
  | .THREE_OF_A_KIND => do
      let tripleRank ← tiebreakers.get? 0
      let kickersRanks := tiebreakers.drop 1
      pure (fillKickers (cards.filter (fun c => c.rank = tripleRank)) kickersRanks cards)
  | .TWO_PAIR => do
      let pair1 ← tiebreakers.get? 0
      let pair2 ← tiebreakers.get? 1
      let kicker ← tiebreakers.get? 2
      pure (twoPairPick pair1 pair2 kicker cards false)
  | .PAIR => do
      let pairRank ← tiebreakers.get? 0
      let kickersRanks := tiebreakers.drop 1
      pure (cards.filter (fun c => c.rank = pairRank ∨ c.rank ∈ kickersRanks))
  | .HIGH_CARD =>
      pure ((cards.insertionSort (fun c1 c2 => c1.rank ≥ c2.rank)).take 5)

/-! ## The Monte Carlo simulator (`src/monte_carlo.py`) -/

/-- Equity fractions `{win, tie, loss}`; Python floats are modelled as
rationals (every value produced here is an exact small fraction). -/
structure Equity where
  win : ℚ
  tie : ℚ
  loss : ℚ
deriving DecidableEq, Repr

/-- The 52-card deck of `poker_engine.Deck.__init__`, suits outermost. -/
def fullDeck : List Card :=
  (List.range 4).flatMap (fun s => (List.range 13).map (fun i => ⟨i + 2, s⟩))

/-- The known-card exclusion loop of `calculate_equity` and
`calculate_range_equity`: keep the deck cards matching no known card by
(rank, suit) equality. -/
def removeKnown (deckCards known : List Card) : List Card :=
  deckCards.filter (fun c => !(known.any (fun k => k.rank = c.rank ∧ k.suit = c.suit)))

/-- The conflict test of `calculate_range_equity`: does some opponent card
share (rank, suit) with some known card? -/
def cardsConflict (oppCards known : List Card) : Bool :=
  oppCards.any (fun oc => known.any (fun kc => oc.rank = kc.rank ∧ oc.suit = kc.suit))

/-- Outcome of one trial of `calculate_equity`. -/
inductive TrialResult
  | win
  | tie
  | loss
deriving DecidableEq, Repr

/-- The per-trial opponent loop of `calculate_equity` (lines 89-108): the
flags `player_wins`/`player_ties` start `True`/`False`; a `-1` comparison
clears `player_wins` and breaks, a `0` comparison sets `player_ties` and
clears `player_wins`; the final tally tests `player_wins` first, then
`player_ties`.  `ties` is the running value of `player_ties`. -/
def classifyLoop (pEval : HandRank × List ℕ) : List (HandRank × List ℕ) → Bool → TrialResult
  | [], ties => if ties then .tie else .win
  | o :: rest, ties =>
      let result := compare_hands pEval o
      if result = -1 then (if ties then .tie else .loss)
      else if result = 0 then classifyLoop pEval rest true
      else classifyLoop pEval rest ties

/-- One iteration of `calculate_equity`: fresh deck, exclusion, shuffle (the
oracle `shuffle` applied at the trial index), dealing of `2 × numOpponents`
opponent cards then `5 - len(community)` board cards, evaluation and the
opponent-comparison loop. -/
def equityTrial (shuffle : ℕ → List Card → List Card)
    (playerCards communityCards : List Card) (numOpponents t : ℕ) : TrialResult :=
  let remaining := removeKnown fullDeck (playerCards ++ communityCards)
  let shuffled := shuffle t remaining
  let oppHands := (List.range numOpponents).map (fun j => (shuffled.drop (2 * j)).take 2)
  let newCommunity := (shuffled.drop (2 * numOpponents)).take (5 - communityCards.length)
  let fullCommunity := communityCards ++ newCommunity
  let playerEval := evaluate_hand (playerCards ++ fullCommunity)
  classifyLoop playerEval (oppHands.map (fun h => evaluate_hand (h ++ fullCommunity))) false

/-- The `(wins, ties, losses)` tally over the first `n` trials of
`calculate_equity`. -/
def equityTally (shuffle : ℕ → List Card → List Card)
    (playerCards communityCards : List Card) (numOpponents : ℕ) : ℕ → ℕ × ℕ × ℕ
  | 0 => (0, 0, 0)
  | n + 1 =>
      let prev := equityTally shuffle playerCards communityCards numOpponents n
      match equityTrial shuffle playerCards communityCards numOpponents n with
      | .win => (prev.1 + 1, prev.2.1, prev.2.2)
      | .tie => (prev.1, prev.2.1 + 1, prev.2.2)
      | .loss => (prev.1, prev.2.1, prev.2.2 + 1)

/-- Python `MonteCarloSimulator.calculate_equity`, with the random shuffles passed
as the oracle `shuffle`. -/
def calculate_equity (shuffle : ℕ → List Card → List Card)
    (playerCards communityCards : List Card) (numOpponents iterations : ℕ) : Equity :=
  let t := equityTally shuffle playerCards communityCards numOpponents iterations
  ⟨(t.1 : ℚ) / (iterations : ℚ), (t.2.1 : ℚ) / (iterations : ℚ), (t.2.2 : ℚ) / (iterations : ℚ)⟩

/-- One trial of `calculate_range_equity` against a fixed opponent hand:
exclude player + community + opponent cards, shuffle, complete the board,
compare the two evaluations. -/
def rangeTrial (shuffle : ℕ → List Card → List Card)
    (playerCards communityCards oppCards : List Card) (t : ℕ) : Int :=
  let known := playerCards ++ communityCards ++ oppCards
  let remaining := removeKnown fullDeck known
  let shuffled := shuffle t remaining
  let newCommunity := shuffled.take (5 - communityCards.length)
  let fullCommunity := communityCards ++ newCommunity
  compare_hands (evaluate_hand (playerCards ++ fullCommunity))
    (evaluate_hand (oppCards ++ fullCommunity))

/-- The `(wins, ties, losses)` tally of `iterations_per_hand` trials against
one opponent hand, the trials numbered from `t`. -/
def rangeHandTally (shuffle : ℕ → List Card → List Card)
    (playerCards communityCards oppCards : List Card) (t : ℕ) : ℕ → ℕ × ℕ × ℕ
  | 0 => (0, 0, 0)
  | n + 1 =>
      let prev := rangeHandTally shuffle playerCards communityCards oppCards t n
      let r := rangeTrial shuffle playerCards communityCards oppCards (t + n)
      if r = 1 then (prev.1 + 1, prev.2.1, prev.2.2)
      else if r = 0 then (prev.1, prev.2.1 + 1, prev.2.2)
      else (prev.1, prev.2.1, prev.2.2 + 1)

/-- The outer range loop of `calculate_range_equity`: skip every opponent
hand that conflicts with the player's or community's cards, otherwise
accumulate the per-hand tally; `t` numbers the trials consumed so far. -/
def rangeTally (shuffle : ℕ → List Card → List Card)
    (playerCards communityCards : List Card) (iterationsPerHand : ℕ) :
    List (Card × Card) → ℕ → ℕ × ℕ × ℕ
  | [], _ => (0, 0, 0)
  | oppHand :: rest, t =>
      let oppCards := [oppHand.1, oppHand.2]
      if cardsConflict oppCards (playerCards ++ communityCards) then
        rangeTally shuffle playerCards communityCards iterationsPerHand rest t
      else
        let here := rangeHandTally shuffle playerCards communityCards oppCards t iterationsPerHand
        let there := rangeTally shuffle playerCards communityCards iterationsPerHand rest
          (t + iterationsPerHand)
        (here.1 + there.1, here.2.1 + there.2.1, here.2.2 + there.2.2)

/-- Python `MonteCarloSimulator.calculate_range_equity`: accumulate over the
non-conflicting range entries; a zero total is reported as the all-zero
equity instead of dividing by zero. -/
def calculate_range_equity (shuffle : ℕ → List Card → List Card)
    (playerCards : List Card) (opponentRange : List (Card × Card))
    (communityCards : List Card) (iterationsPerHand : ℕ) : Equity :=
  let t := rangeTally shuffle playerCards communityCards iterationsPerHand opponentRange 0
  let total := t.1 + t.2.1 + t.2.2
  if total = 0 then ⟨0, 0, 0⟩
  else ⟨(t.1 : ℚ) / (total : ℚ), (t.2.1 : ℚ) / (total : ℚ), (t.2.2 : ℚ) / (total : ℚ)⟩

/-! ## Concrete inputs used by the claim theorems -/

/-- Six hearts A, 9, 8, 7, 6, 5 plus the 2 of spades: the hearts contain the
straight flush 9-8-7-6-5, but the top five heart ranks are A, 9, 8, 7, 6. -/
def sfBugCards : List Card :=
  [⟨14, 0⟩, ⟨9, 0⟩, ⟨8, 0⟩, ⟨7, 0⟩, ⟨6, 0⟩, ⟨5, 0⟩, ⟨2, 3⟩]

/-- Four kings and three fives (all suits distinct). -/
def quadTripleCards : List Card :=
  [⟨13, 3⟩, ⟨13, 0⟩, ⟨13, 1⟩, ⟨13, 2⟩, ⟨5, 3⟩, ⟨5, 0⟩, ⟨5, 1⟩]

/-- Four kings, a pair of fives and a deuce. -/
def quadPairCards : List Card :=
  [⟨13, 3⟩, ⟨13, 0⟩, ⟨13, 1⟩, ⟨13, 2⟩, ⟨5, 3⟩, ⟨5, 0⟩, ⟨2, 1⟩]

/-- Three pairs: aces, kings and queens, plus a deuce (no flush possible). -/
def threePairCards : List Card :=
  [⟨14, 3⟩, ⟨14, 0⟩, ⟨13, 3⟩, ⟨13, 0⟩, ⟨12, 3⟩, ⟨12, 0⟩, ⟨2, 1⟩]

/-- Player hole cards for the C2 scenario: K of diamonds and K of clubs. -/
def c2Player : List Card := [⟨13, 1⟩, ⟨13, 2⟩]

/-- Full board for the C2 scenario: 2 of hearts, 3 of diamonds, 4 of clubs,
5 of hearts, 9 of spades (no flush, and a 6 completes a straight). -/
def c2Board : List Card := [⟨2, 0⟩, ⟨3, 1⟩, ⟨4, 2⟩, ⟨5, 0⟩, ⟨9, 3⟩]

/-- First opponent of the C2 scenario: K of spades and K of hearts, tying the
player with the same pair of kings. -/
def c2Opp1 : List Card := [⟨13, 3⟩, ⟨13, 0⟩]

/-- Second opponent of the C2 scenario: A of clubs and 6 of clubs, making the
straight 6-5-4-3-2 and beating the player. -/
def c2Opp2 : List Card := [⟨14, 2⟩, ⟨6, 2⟩]

/-- Shuffle oracle for the C2 scenario: the shuffled remainder starts with
the first opponent's cards then the second opponent's (a genuine permutation
of the 45 remaining cards, as the theorem checks). -/
def c2Shuffle : ℕ → List Card → List Card :=
  fun _ _ => (c2Opp1 ++ c2Opp2) ++ removeKnown fullDeck (c2Player ++ c2Board ++ c2Opp1 ++ c2Opp2)


/-- The royal-flush hand of the repository's own test suite:
A, K, Q, J, 10 of spades plus 2 of hearts and 3 of diamonds. -/
def royalCards : List Card :=
  [⟨14, 3⟩, ⟨13, 3⟩, ⟨12, 3⟩, ⟨11, 3⟩, ⟨10, 3⟩, ⟨2, 0⟩, ⟨3, 1⟩]

/-- A wheel-straight hand: A, 2, 3, 4, 5 of mixed suits plus a 9 and a jack. -/
def wheelCards : List Card :=
  [⟨14, 3⟩, ⟨2, 0⟩, ⟨3, 1⟩, ⟨4, 2⟩, ⟨5, 3⟩, ⟨9, 0⟩, ⟨11, 1⟩]

/-- The identity shuffle oracle (used where the shuffle is irrelevant). -/
def shuffleId : ℕ → List Card → List Card := fun _ l => l

/--
Claim C1.  The claim states that whenever some suit has at least 5 cards and
the straight-detection subroutine applied to the full set of that suit's
ranks finds a straight, `evaluate_hand` returns `STRAIGHT_FLUSH`.  The code
instead applies the recheck to only the top five flush ranks: on the suited
cards A, 9, 8, 7, 6, 5 plus one off-suit card, the straight detection over
the full flush-suit rank set finds the straight with high card 9, yet
`evaluate_hand` returns `FLUSH` with the top five flush ranks.
-/
theorem C1_straight_flush_recheck_truncated_to_top_five :
    check_straight ((sfBugCards.filter (fun c => c.suit = 0)).map Card.rank) = some 9 ∧
    check_flush sfBugCards = some [14, 9, 8, 7, 6] ∧
    evaluate_hand sfBugCards = (HandRank.FLUSH, [14, 9, 8, 7, 6]) := by
  decide

/--
Claim C3.  The claim states that `get_best_five_card_hand` returns normally
on every 5-7 distinct-card input and round-trips through `evaluate_hand`.
On four kings plus three fives, `evaluate_hand` produces the tiebreakers
`[13]` (no rank of multiplicity one exists, so no kicker is appended), and
the `FOUR_OF_A_KIND` arm of `get_best_five_card_hand` then reads
`tiebreakers[1]`, which raises `IndexError` (modelled by `none`).
-/
theorem C3_best_five_card_hand_crashes_on_quads_plus_triple :
    evaluate_hand quadTripleCards = (HandRank.FOUR_OF_A_KIND, [13]) ∧
    get_best_five_card_hand quadTripleCards = none := by
  decide

/--
Claim C4.  The claim states that the quad tiebreakers are
`[quad rank, best kicker]` with the best kicker the highest rank among the
input cards other than the quad rank (5 in K,K,K,K,5,5,2), and that
K,K,K,K,5,5,5 still has a second tiebreaker.  The code instead draws the
kicker from the ranks of multiplicity exactly one: K,K,K,K,5,5,2 gets
kicker 2, and K,K,K,K,5,5,5 gets no kicker at all.
-/
theorem C4_quad_kicker_drawn_from_singleton_ranks_only :
    evaluate_hand quadPairCards = (HandRank.FOUR_OF_A_KIND, [13, 2]) ∧
    evaluate_hand quadTripleCards = (HandRank.FOUR_OF_A_KIND, [13]) := by
  decide

/--
Claim C5.  The claim states that for A,A,K,K,Q,Q,2 the third `TWO_PAIR`
tiebreaker is 12, the rank of the unused third pair being the highest card
outside the two chosen pairs.  The code instead takes the best rank of
multiplicity exactly one, producing 2.
-/
theorem C5_two_pair_kicker_drawn_from_singleton_ranks_only :
    evaluate_hand threePairCards = (HandRank.TWO_PAIR, [14, 13, 2]) := by
  decide

/--
Claim C2.  The claim states that a trial is counted as a loss whenever at
least one opponent beats the player, even if the player also tied some
other opponent.  In the code, a tie observed before the losing comparison
leaves `player_ties` set, and after the loss breaks the loop the tally
tests `player_ties` before counting the loss: with one iteration in which
the player ties opponent 1 (`compare = 0`) and is beaten by opponent 2
(`compare = -1`), under a shuffle that is a true permutation of the
remaining deck, `calculate_equity` returns `{win: 0, tie: 1, loss: 0}`
where the claim requires the trial to be a loss.
-/
theorem C2_tie_before_loss_counted_as_tie :
    compare_hands (evaluate_hand (c2Player ++ c2Board)) (evaluate_hand (c2Opp1 ++ c2Board)) = 0 ∧
    compare_hands (evaluate_hand (c2Player ++ c2Board)) (evaluate_hand (c2Opp2 ++ c2Board)) = -1 ∧
    (c2Shuffle 0 (removeKnown fullDeck (c2Player ++ c2Board))).Perm
      (removeKnown fullDeck (c2Player ++ c2Board)) ∧
    calculate_equity c2Shuffle c2Player c2Board 2 1 = ⟨0, 1, 0⟩ := by
  have h : equityTally c2Shuffle c2Player c2Board 2 1 = (0, 1, 0) := by decide
  refine ⟨by decide, by decide, by decide, ?_⟩
  rw [calculate_equity, h]
  norm_num

/-! ## Helper lemmas -/

/-- The tiebreaker comparison negates under swapping its arguments. -/
theorem cmpTiebreakers_antisymm (t1 t2 : List ℕ) :
    cmpTiebreakers t1 t2 = -cmpTiebreakers t2 t1 := by
  induction t1 generalizing t2 with
  | nil => cases t2 <;> simp [cmpTiebreakers]
  | cons a r1 ih =>
      cases t2 with
      | nil => simp [cmpTiebreakers]
      | cons b r2 =>
          simp only [cmpTiebreakers]
          by_cases h1 : b < a
          · simp [h1, Nat.lt_asymm h1]
          · by_cases h2 : a < b
            · simp [h1, h2]
            · simp [h1, h2, ih r2]

/-- The tiebreaker comparison of a list against an extension of itself is 0. -/
theorem cmpTiebreakers_self_append (t rest : List ℕ) :
    cmpTiebreakers t (t ++ rest) = 0 := by
  induction t with
  | nil => cases rest <;> simp [cmpTiebreakers]
  | cons a r ih => simp [cmpTiebreakers, ih]

/--
Claim C8.  `compare_hands` is antisymmetric — swapping the arguments negates
the result (so equal results are both zero) — and when the categories agree
and one tiebreaker sequence is a prefix of the other (in particular when
both are exhausted, `rest = []`), the result is 0 in both orders.
-/
theorem C8_compare_hands_antisymmetric_and_prefix_tie :
    (∀ a b : HandRank × List ℕ, compare_hands a b = -compare_hands b a) ∧
    (∀ (r : HandRank) (t rest : List ℕ),
      compare_hands (r, t) (r, t ++ rest) = 0 ∧ compare_hands (r, t ++ rest) (r, t) = 0) := by
  constructor
  · intro a b
    unfold compare_hands
    by_cases h1 : b.1.val < a.1.val
    · simp [h1, Nat.lt_asymm h1]
    · by_cases h2 : a.1.val < b.1.val
      · simp [h1, h2]
      · simp [h1, h2, cmpTiebreakers_antisymm a.2 b.2]
  · intro r t rest
    constructor
    · simp [compare_hands, cmpTiebreakers_self_append]
    · have h := cmpTiebreakers_antisymm (t ++ rest) t
      simp [compare_hands, cmpTiebreakers_self_append] at h ⊢
      omega

/-- A fully conflicting range contributes no trials: the tally is zero from
any starting trial index. -/
theorem rangeTally_eq_zero_of_all_conflict (shuffle : ℕ → List Card → List Card)
    (playerCards communityCards : List Card) (iterationsPerHand : ℕ)
    (opponentRange : List (Card × Card))
    (h : ∀ e ∈ opponentRange, cardsConflict [e.1, e.2] (playerCards ++ communityCards) = true) :
    ∀ t, rangeTally shuffle playerCards communityCards iterationsPerHand opponentRange t =
      (0, 0, 0) := by
  induction opponentRange with
  | nil => intro t; rfl
  | cons e rest ih =>
      intro t
      have he := h e (List.mem_cons_self e rest)
      have ihr := ih (fun x hx => h x (List.mem_cons_of_mem e hx))
      simp [rangeTally, he, ihr t]

/--
Claim C7.  When every entry of the opponent range shares a card, by
(rank, suit) equality, with the player's hole cards or the known community
cards, every entry is skipped (the tally of wins, ties and losses stays
`(0, 0, 0)`) and `calculate_range_equity` returns exactly
`{win: 0, tie: 0, loss: 0}` through the explicit zero-total branch, with no
division by zero.
-/
theorem C7_fully_conflicting_range_yields_zero_equity
    (shuffle : ℕ → List Card → List Card)
    (playerCards communityCards : List Card) (iterationsPerHand : ℕ)
    (opponentRange : List (Card × Card))
    (h : ∀ e ∈ opponentRange, cardsConflict [e.1, e.2] (playerCards ++ communityCards) = true) :
    rangeTally shuffle playerCards communityCards iterationsPerHand opponentRange 0 = (0, 0, 0) ∧
    calculate_range_equity shuffle playerCards opponentRange communityCards iterationsPerHand =
      ⟨0, 0, 0⟩ := by
  have hz := rangeTally_eq_zero_of_all_conflict shuffle playerCards communityCards
    iterationsPerHand opponentRange h 0
  refine ⟨hz, ?_⟩
  rw [calculate_range_equity, hz]
  simp

/--
Witness for C7: the single-entry range sharing the ace of spades with the
player's hole cards is skipped and the result is the all-zero equity.
-/
theorem C7_witness :
    calculate_range_equity shuffleId [⟨14, 3⟩, ⟨13, 3⟩] [(⟨14, 3⟩, ⟨12, 0⟩)] [] 100 =
      ⟨0, 0, 0⟩ :=
  (C7_fully_conflicting_range_yields_zero_equity shuffleId [⟨14, 3⟩, ⟨13, 3⟩] [] 100
    [(⟨14, 3⟩, ⟨12, 0⟩)] (by decide)).2

/-- Membership in `dedupFirst` is membership in the original list. -/
theorem mem_dedupFirst {a : ℕ} : ∀ {l : List ℕ}, a ∈ dedupFirst l ↔ a ∈ l
  | [] => by simp [dedupFirst]
  | b :: l => by
      by_cases hab : a = b
      · subst hab; simp [dedupFirst]
      · simp [dedupFirst, hab, List.mem_filter, mem_dedupFirst (l := l)]

/-- The output of `dedupFirst` has no duplicates. -/
theorem nodup_dedupFirst : ∀ l : List ℕ, (dedupFirst l).Nodup
  | [] => List.nodup_nil
  | b :: l => by
      refine List.Nodup.cons ?_ ((nodup_dedupFirst l).filter _)
      intro hmem
      have := (List.mem_filter.mp hmem).2
      simp at this

/-- `dedupFirst` never lengthens a list. -/
theorem length_dedupFirst_le : ∀ l : List ℕ, (dedupFirst l).length ≤ l.length
  | [] => le_refl 0
  | b :: l => by
      have h1 := List.length_filter_le (fun x => x ≠ b) (dedupFirst l)
      have h2 := length_dedupFirst_le l
      simp only [dedupFirst, List.length_cons]
      omega

/-- `sortDesc` preserves membership. -/
theorem mem_sortDesc {a : ℕ} {l : List ℕ} : a ∈ sortDesc l ↔ a ∈ l :=
  List.mem_insertionSort (· ≥ ·)

/-- `sortDesc` preserves length. -/
theorem length_sortDesc (l : List ℕ) : (sortDesc l).length = l.length :=
  List.length_insertionSort (· ≥ ·) l

/-- `sortDesc` preserves the absence of duplicates. -/
theorem nodup_sortDesc {l : List ℕ} (h : l.Nodup) : (sortDesc l).Nodup :=
  ((List.perm_insertionSort (· ≥ ·) l).nodup_iff).mpr h

/-- Two different target values of a projection give disjoint filters, so the
two counts together never exceed the list length. -/
theorem count_eq_filter_disjoint (f : Card → ℕ) {v1 v2 : ℕ} (h : v1 ≠ v2) :
    ∀ l : List Card,
      (l.filter (fun c => f c = v1)).length + (l.filter (fun c => f c = v2)).length ≤ l.length
  | [] => by simp
  | c :: l => by
      have ih := count_eq_filter_disjoint f h l
      have h' : ¬ v1 = v2 := h
      have h'' : ¬ v2 = v1 := fun hh => h hh.symm
      by_cases h1 : f c = v1
      · have h2 : ¬(f c = v2) := fun hh => h (h1 ▸ hh ▸ rfl)
        simp [List.filter_cons, h1, h2, h', h'']; omega
      · by_cases h2 : f c = v2
        · simp [List.filter_cons, h1, h2, h', h'']; omega
        · simp [List.filter_cons, h1, h2, h', h'']; omega

/-- Counts of two different ranks together never exceed the hand size. -/
theorem rankCount_add_rankCount_le (cards : List Card) {r1 r2 : ℕ} (h : r1 ≠ r2) :
    rankCount cards r1 + rankCount cards r2 ≤ cards.length :=
  count_eq_filter_disjoint Card.rank h cards

/-- Counts of two different suits together never exceed the hand size. -/
theorem suitCount_add_suitCount_le (cards : List Card) {s1 s2 : ℕ} (h : s1 ≠ s2) :
    suitCount cards s1 + suitCount cards s2 ≤ cards.length :=
  count_eq_filter_disjoint Card.suit h cards

/-- A suit count is at most the hand size. -/
theorem suitCount_le_length (cards : List Card) (s : ℕ) : suitCount cards s ≤ cards.length :=
  List.length_filter_le _ cards

/-- A rank appears in the triples list iff it is a rank of the hand with
multiplicity exactly 3. -/
theorem mem_triplesOf {cards : List Card} {r : ℕ} :
    r ∈ triplesOf cards ↔ r ∈ cards.map Card.rank ∧ rankCount cards r = 3 := by
  simp [triplesOf, check_pairs_and_sets, mem_sortDesc, List.mem_filter, mem_dedupFirst]

/-- A rank appears in the pairs list iff it is a rank of the hand with
multiplicity exactly 2. -/
theorem mem_pairsOf {cards : List Card} {r : ℕ} :
    r ∈ pairsOf cards ↔ r ∈ cards.map Card.rank ∧ rankCount cards r = 2 := by
  simp [pairsOf, check_pairs_and_sets, mem_sortDesc, List.mem_filter, mem_dedupFirst]

/-- A rank appears in the quads list iff it is a rank of the hand with
multiplicity exactly 4. -/
theorem mem_foursOf {cards : List Card} {r : ℕ} :
    r ∈ foursOf cards ↔ r ∈ cards.map Card.rank ∧ rankCount cards r = 4 := by
  simp [foursOf, check_pairs_and_sets, mem_sortDesc, List.mem_filter, mem_dedupFirst]

/-- The triples list has no duplicates. -/
theorem nodup_triplesOf (cards : List Card) : (triplesOf cards).Nodup :=
  nodup_sortDesc ((nodup_dedupFirst _).filter _)

/-- With every suit short of 5 cards there is no flush. -/
theorem check_flush_eq_none (cards : List Card) (h : ∀ s, suitCount cards s < 5) :
    check_flush cards = none := by
  have hf : (dedupFirst (cards.map Card.suit)).find? (fun s => 5 ≤ suitCount cards s) = none := by
    rw [List.find?_eq_none]
    intro s _
    simp [Nat.not_le.mpr (h s)]
  simp [check_flush, hf]

/-- With fewer than 5 distinct ranks there is no straight. -/
theorem check_straight_eq_none {ranks : List ℕ} (h : (dedupFirst ranks).length < 5) :
    check_straight ranks = none := by
  have : (sortDesc (dedupFirst ranks)).length < 5 := by rw [length_sortDesc]; exact h
  simp [check_straight, this]

/--
Claim C10.  `evaluate_hand` is total on non-empty inputs: there is no
fail-fast size check, so an undersized input (fewer than 5 cards) is
silently classified by the multiplicity-based branches (no flush, straight
or full house can fire there), and in particular a 2-card input holding a
pair evaluates to `(PAIR, [pair rank])`.  Totality itself holds by
construction: the embedding is a total function mirroring each (total)
operation of the Python body.
-/
theorem C10_no_size_precondition_small_inputs_classified :
    (∀ cards : List Card, cards ≠ [] → cards.length < 5 →
      (evaluate_hand cards).1 ∈
        ([.HIGH_CARD, .PAIR, .TWO_PAIR, .THREE_OF_A_KIND, .FOUR_OF_A_KIND] : List HandRank)) ∧
    (∀ (r s1 s2 : ℕ), s1 ≠ s2 →
      evaluate_hand [⟨r, s1⟩, ⟨r, s2⟩] = (HandRank.PAIR, [r])) := by
  constructor
  · intro cards _ hlen
    have hfr : flush_ranks cards = [] := by
      rw [flush_ranks,
        check_flush_eq_none cards (fun s => lt_of_le_of_lt (suitCount_le_length cards s) hlen)]
      rfl
    have hdl : (dedupFirst (cards.map Card.rank)).length < 5 := by
      have h1 := length_dedupFirst_le (cards.map Card.rank)
      rw [List.length_map] at h1
      omega
    have hsh : straight_high cards = 0 := by
      rw [straight_high, check_straight_eq_none hdl]
      rfl
    have hfh1 : ¬(triplesOf cards ≠ [] ∧ pairsOf cards ≠ []) := by
      rintro ⟨h3, h2⟩
      obtain ⟨r3, hr3⟩ := List.exists_mem_of_ne_nil _ h3
      obtain ⟨r2, hr2⟩ := List.exists_mem_of_ne_nil _ h2
      have c3 := (mem_triplesOf.mp hr3).2
      have c2 := (mem_pairsOf.mp hr2).2
      have hne : r3 ≠ r2 := fun hh => by rw [hh, c2] at c3; exact absurd c3 (by norm_num)
      have := rankCount_add_rankCount_le cards hne
      omega
    have hfh2 : ¬(2 ≤ (triplesOf cards).length) := by
      intro h2
      have hnd := nodup_triplesOf cards
      rcases hl : triplesOf cards with _ | ⟨x, _ | ⟨y, rest⟩⟩
      · rw [hl] at h2; simp at h2
      · rw [hl] at h2; simp at h2
      · rw [hl] at hnd
        have hx_nmem := (List.nodup_cons.mp hnd).1
        have hxy : x ≠ y := fun hh => hx_nmem (by rw [hh]; exact List.mem_cons_self y rest)
        have hx : x ∈ triplesOf cards := by rw [hl]; simp
        have hy : y ∈ triplesOf cards := by rw [hl]; simp
        have cx := (mem_triplesOf.mp hx).2
        have cy := (mem_triplesOf.mp hy).2
        have := rankCount_add_rankCount_le cards hxy
        omega
    unfold evaluate_hand
    rw [hfr, hsh]
    rw [if_neg (by simp), if_neg (by simp)]
    by_cases h4 : foursOf cards ≠ []
    · rw [if_pos h4]; simp
    · rw [if_neg h4, if_neg hfh1, if_neg hfh2, if_neg (by simp), if_neg (by simp)]
      by_cases h5 : triplesOf cards ≠ []
      · rw [if_pos h5]; simp
      · rw [if_neg h5]
        by_cases h6 : 2 ≤ (pairsOf cards).length
        · rw [if_pos h6]; simp
        · rw [if_neg h6]
          by_cases h7 : pairsOf cards ≠ []
          · rw [if_pos h7]; simp
          · rw [if_neg h7]; simp
  · intro r s1 s2 h
    have h2 : s2 ≠ s1 := fun hh => h hh.symm
    have hsc : ∀ s, suitCount [(⟨r, s1⟩ : Card), ⟨r, s2⟩] s < 5 := by
      intro s
      have := suitCount_le_length [(⟨r, s1⟩ : Card), ⟨r, s2⟩] s
      simp at this
      omega
    have hfr : flush_ranks [(⟨r, s1⟩ : Card), ⟨r, s2⟩] = [] := by
      rw [flush_ranks, check_flush_eq_none _ hsc]
      rfl
    have hdl : (dedupFirst ([(⟨r, s1⟩ : Card), ⟨r, s2⟩].map Card.rank)).length < 5 := by
      show (dedupFirst [r, r]).length < 5
      have := length_dedupFirst_le [r, r]
      simp at this
      omega
    have hsh : straight_high [(⟨r, s1⟩ : Card), ⟨r, s2⟩] = 0 := by
      rw [straight_high, check_straight_eq_none hdl]
      rfl
    have hcount : rankCount [(⟨r, s1⟩ : Card), ⟨r, s2⟩] r = 2 := by
      simp [rankCount, List.filter_cons]
    have hpcs : check_pairs_and_sets [(⟨r, s1⟩ : Card), ⟨r, s2⟩] = ([], [], [r], []) := by
      have hdd : dedupFirst ([(⟨r, s1⟩ : Card), ⟨r, s2⟩].map Card.rank) = [r] := by
        simp [dedupFirst]
      rw [check_pairs_and_sets, hdd]
      simp [List.filter_cons, hcount, sortDesc, List.insertionSort]
    unfold evaluate_hand
    rw [hfr, hsh]
    rw [if_neg (by simp), if_neg (by simp)]
    rw [foursOf, triplesOf, pairsOf, kickersOf, hpcs]
    norm_num

/--
Witness for C10: a 3-card input is classified (not rejected), and the 2-card
pair of fives evaluates to `(PAIR, [5])`.
-/
theorem C10_witness :
    (evaluate_hand [⟨7, 0⟩, ⟨9, 1⟩, ⟨11, 2⟩]).1 ∈
      ([.HIGH_CARD, .PAIR, .TWO_PAIR, .THREE_OF_A_KIND, .FOUR_OF_A_KIND] : List HandRank) ∧
    evaluate_hand [⟨5, 0⟩, ⟨5, 3⟩] = (HandRank.PAIR, [5]) :=
  ⟨C10_no_size_precondition_small_inputs_classified.1 [⟨7, 0⟩, ⟨9, 1⟩, ⟨11, 2⟩]
      (by decide) (by decide),
    C10_no_size_precondition_small_inputs_classified.2 5 0 3 (by decide)⟩

/-- `sortDesc` sorts with respect to `≥`. -/
theorem sorted_sortDesc (l : List ℕ) : (sortDesc l).Sorted (· ≥ ·) :=
  List.sorted_insertionSort (· ≥ ·) l

/-- A `≥`-sorted list without duplicates is strictly descending. -/
theorem sorted_gt_of_sorted_ge_nodup :
    ∀ {l : List ℕ}, l.Sorted (· ≥ ·) → l.Nodup → l.Sorted (· > ·)
  | [], _, _ => List.sorted_nil
  | a :: t, hs, hn => by
      rw [List.sorted_cons] at hs ⊢
      rw [List.nodup_cons] at hn
      refine ⟨fun b hb => lt_of_le_of_ne (hs.1 b hb) ?_, 
        sorted_gt_of_sorted_ge_nodup hs.2 hn.2⟩
      exact fun hh => hn.1 (hh ▸ hb)

/-- Peeling the maximum off a strictly descending list: if `m` bounds the
list and occurs in it, the list starts with `m` and the tail is strictly
below `m`. -/
theorem sorted_gt_peel {t : List ℕ} {m : ℕ} (hs : t.Sorted (· > ·))
    (hub : ∀ x ∈ t, x ≤ m) (hm : m ∈ t) :
    ∃ t2, t = m :: t2 ∧ t2.Sorted (· > ·) ∧ ∀ x ∈ t2, x < m := by
  cases t with
  | nil => cases hm
  | cons a t2 =>
      rw [List.sorted_cons] at hs
      have ham : a = m := by
        rcases List.mem_cons.mp hm with h | h
        · exact h.symm
        · have h1 := hs.1 m h
          have h2 := hub a (List.mem_cons_self a t2)
          omega
      subst ham
      exact ⟨t2, rfl, hs.2, fun x hx => hs.1 x hx⟩

/-- A strictly descending list bounded by 14 that contains 14, 13, 12, 11
and 10 starts exactly with those five values. -/
theorem sorted_gt_top_five {t : List ℕ} (hs : t.Sorted (· > ·)) (hub : ∀ x ∈ t, x ≤ 14)
    (h14 : 14 ∈ t) (h13 : 13 ∈ t) (h12 : 12 ∈ t) (h11 : 11 ∈ t) (h10 : 10 ∈ t) :
    ∃ rest, t = 14 :: 13 :: 12 :: 11 :: 10 :: rest := by
  obtain ⟨t1, rfl, hs1, hub1⟩ := sorted_gt_peel hs hub h14
  have m13 : (13 : ℕ) ∈ t1 := by
    rcases List.mem_cons.mp h13 with h | h
    · omega
    · exact h
  obtain ⟨t2, rfl, hs2, hub2⟩ :=
    sorted_gt_peel hs1 (fun x hx => by have := hub1 x hx; omega) m13
  have m12 : (12 : ℕ) ∈ t2 := by
    rcases List.mem_cons.mp h12 with h | h
    · omega
    · rcases List.mem_cons.mp h with h | h
      · omega
      · exact h
  obtain ⟨t3, rfl, hs3, hub3⟩ :=
    sorted_gt_peel hs2 (fun x hx => by have := hub2 x hx; omega) m12
  have m11 : (11 : ℕ) ∈ t3 := by
    rcases List.mem_cons.mp h11 with h | h
    · omega
    · rcases List.mem_cons.mp h with h | h
      · omega
      · rcases List.mem_cons.mp h with h | h
        · omega
        · exact h
  obtain ⟨t4, rfl, hs4, hub4⟩ :=
    sorted_gt_peel hs3 (fun x hx => by have := hub3 x hx; omega) m11
  have m10 : (10 : ℕ) ∈ t4 := by
    rcases List.mem_cons.mp h10 with h | h
    · omega
    · rcases List.mem_cons.mp h with h | h
      · omega
      · rcases List.mem_cons.mp h with h | h
        · omega
        · rcases List.mem_cons.mp h with h | h
          · omega
          · exact h
  obtain ⟨t5, rfl, _, _⟩ :=
    sorted_gt_peel hs4 (fun x hx => by have := hub4 x hx; omega) m10
  exact ⟨t5, rfl⟩

/-- On a strictly descending list, a successful window scan pinpoints a run
of 5 consecutive values present in the list, with the returned value at
least 4 and the run descending from it. -/
theorem windowScan_some_run :
    ∀ {l : List ℕ}, l.Sorted (· > ·) → ∀ {hgh : ℕ},
      windowScan l = some hgh → 4 ≤ hgh ∧ ∀ j, j < 5 → hgh - j ∈ l
  | [], _, _, heq => by simp [windowScan] at heq
  | [a], _, _, heq => by simp [windowScan] at heq
  | [a, b], _, _, heq => by simp [windowScan] at heq
  | [a, b, c], _, _, heq => by simp [windowScan] at heq
  | [a, b, c, d], _, _, heq => by simp [windowScan] at heq
  | a :: b :: c :: d :: e :: rest, hs, hgh, heq => by
      have hab : a > b := List.rel_of_sorted_cons hs b (by simp)
      have hbc : b > c := List.rel_of_sorted_cons (List.sorted_cons.mp hs).2 c (by simp)
      have hcd : c > d :=
        List.rel_of_sorted_cons (List.sorted_cons.mp (List.sorted_cons.mp hs).2).2 d (by simp)
      have hde : d > e :=
        List.rel_of_sorted_cons
          (List.sorted_cons.mp (List.sorted_cons.mp (List.sorted_cons.mp hs).2).2).2 e (by simp)
      rw [windowScan] at heq
      by_cases hae : a - e = 4
      · rw [if_pos hae] at heq
        have ha : hgh = a := by injection heq with h; omega
        subst ha
        refine ⟨by omega, fun j hj => ?_⟩
        interval_cases j
        · simp
        · have hb : hgh - 1 = b := by omega
          rw [hb]; simp
        · have hc : hgh - 2 = c := by omega
          rw [hc]; simp
        · have hd : hgh - 3 = d := by omega
          rw [hd]; simp
        · have he : hgh - 4 = e := by omega
          rw [he]; simp
      · rw [if_neg hae] at heq
        obtain ⟨h4, hmem⟩ := windowScan_some_run (List.sorted_cons.mp hs).2 heq
        exact ⟨h4, fun j hj => List.mem_cons_of_mem a (hmem j hj)⟩

/-- On a strictly descending list bounded by 14 that contains no run of 5
consecutive values, the window scan fails. -/
theorem windowScan_eq_none {l : List ℕ} (hs : l.Sorted (· > ·)) (hub : ∀ x ∈ l, x ≤ 14)
    (hnorun : ∀ k, k < 15 → ¬∀ j, j < 5 → (k + j) ∈ l) : windowScan l = none := by
  cases heq : windowScan l with
  | none => rfl
  | some hgh =>
      obtain ⟨h4, hmem⟩ := windowScan_some_run hs heq
      have hub' : hgh ≤ 14 := by
        have h0 := hmem 0 (by omega)
        simpa using hub hgh (by simpa using h0)
      refine absurd ?_ (hnorun (hgh - 4) (by omega))
      intro j hj
      have heqj : hgh - 4 + j = hgh - (4 - j) := by omega
      rw [heqj]
      exact hmem (4 - j) (by omega)

/-- With the wheel ranks present, no run of 5 consecutive ranks and all
ranks at most 14, the straight detection returns the wheel high card 5. -/
theorem check_straight_eq_five {ranks : List ℕ}
    (hub : ∀ x ∈ ranks, x ≤ 14)
    (hwheel : ∀ r ∈ ([14, 2, 3, 4, 5] : List ℕ), r ∈ ranks)
    (hnorun : ∀ k, k < 15 → ¬∀ j, j < 5 → (k + j) ∈ ranks) :
    check_straight ranks = some 5 := by
  have hmemiff : ∀ x : ℕ, x ∈ sortDesc (dedupFirst ranks) ↔ x ∈ ranks :=
    fun x => mem_sortDesc.trans mem_dedupFirst
  have hnd : (sortDesc (dedupFirst ranks)).Nodup := nodup_sortDesc (nodup_dedupFirst _)
  have hgt : (sortDesc (dedupFirst ranks)).Sorted (· > ·) :=
    sorted_gt_of_sorted_ge_nodup (sorted_sortDesc _) hnd
  have hub' : ∀ x ∈ sortDesc (dedupFirst ranks), x ≤ 14 :=
    fun x hx => hub x ((hmemiff x).mp hx)
  have hlen : ¬((sortDesc (dedupFirst ranks)).length < 5) := by
    intro hcon
    have hsub : ({14, 2, 3, 4, 5} : Finset ℕ) ⊆ (sortDesc (dedupFirst ranks)).toFinset := by
      intro x hx
      rw [List.mem_toFinset, hmemiff]
      refine hwheel x ?_
      simpa using hx
    have hcard := Finset.card_le_card hsub
    have hc5 : ({14, 2, 3, 4, 5} : Finset ℕ).card = 5 := by decide
    have htl := (sortDesc (dedupFirst ranks)).toFinset_card_le
    omega
  have hws : windowScan (sortDesc (dedupFirst ranks)) = none := by
    refine windowScan_eq_none hgt hub' ?_
    intro k hk hrun
    exact hnorun k hk (fun j hj => (hmemiff (k + j)).mp (hrun j hj))
  have hall : ([14, 2, 3, 4, 5] : List ℕ).all
      (fun r => decide (r ∈ sortDesc (dedupFirst ranks))) = true := by
    rw [List.all_eq_true]
    intro x hx
    rw [decide_eq_true_eq, hmemiff]
    exact hwheel x hx
  simp only [check_straight]
  rw [if_neg hlen, hws, if_pos hall]

/--
Claim C9.  For every 5-7 distinct-card input with valid ranks and suits
whose ranks include the wheel `{14, 2, 3, 4, 5}` but no run of 5 consecutive
ranks, and which contains no flush, no quad and no full house (neither a
triple together with a pair, nor two distinct triples), `evaluate_hand`
returns `(STRAIGHT, [5])`; this result is strictly below the `{6..10}`
straight `(STRAIGHT, [10])` under `compare_hands` and strictly above every
`HIGH_CARD` hand.
-/
theorem C9_wheel_straight_evaluates_to_five_high (cards : List Card)
    (hnodup : cards.Nodup)
    (hlen5 : 5 ≤ cards.length) (hlen7 : cards.length ≤ 7)
    (hrank : ∀ c ∈ cards, 2 ≤ c.rank ∧ c.rank ≤ 14)
    (hsuit : ∀ c ∈ cards, c.suit < 4)
    (hwheel : ∀ r ∈ ([14, 2, 3, 4, 5] : List ℕ), r ∈ cards.map Card.rank)
    (hnorun : ∀ k, k < 15 → ¬∀ j, j < 5 → (k + j) ∈ cards.map Card.rank)
    (hflush : ∀ s, s < 4 → suitCount cards s < 5)
    (hquad : ∀ r, r < 15 → rankCount cards r ≠ 4)
    (hfh1 : ∀ r1, r1 < 15 → ∀ r2, r2 < 15 → ¬(rankCount cards r1 = 3 ∧ rankCount cards r2 = 2))
    (hfh2 : ∀ r1, r1 < 15 → ∀ r2, r2 < 15 → r1 ≠ r2 →
      ¬(rankCount cards r1 = 3 ∧ rankCount cards r2 = 3)) :
    evaluate_hand cards = (HandRank.STRAIGHT, [5]) ∧
    compare_hands (HandRank.STRAIGHT, [5]) (HandRank.STRAIGHT, [10]) = -1 ∧
    (∀ tb : List ℕ, compare_hands (HandRank.STRAIGHT, [5]) (HandRank.HIGH_CARD, tb) = 1) := by
  have hrank15 : ∀ r ∈ cards.map Card.rank, r < 15 := by
    intro r hr
    obtain ⟨c, hc, rfl⟩ := List.mem_map.mp hr
    have := (hrank c hc).2
    omega
  have hflush' : ∀ s, suitCount cards s < 5 := by
    intro s
    by_cases hs : s < 4
    · exact hflush s hs
    · have : cards.filter (fun c => c.suit = s) = [] := by
        rw [List.filter_eq_nil_iff]
        intro c hc
        have := hsuit c hc
        simp only [decide_eq_true_eq]
        omega
      rw [suitCount, this]
      simp
  have hfr : flush_ranks cards = [] := by
    rw [flush_ranks, check_flush_eq_none cards hflush']
    rfl
  have hsh : straight_high cards = 5 := by
    have hub : ∀ x ∈ cards.map Card.rank, x ≤ 14 := fun x hx => by
      have := hrank15 x hx; omega
    rw [straight_high, check_straight_eq_five hub hwheel hnorun]
    rfl
  have hfours : foursOf cards = [] := by
    rw [List.eq_nil_iff_forall_not_mem]
    intro r hr
    obtain ⟨hrm, hrc⟩ := mem_foursOf.mp hr
    exact hquad r (hrank15 r hrm) hrc
  have hfh1' : ¬(triplesOf cards ≠ [] ∧ pairsOf cards ≠ []) := by
    rintro ⟨h3, h2⟩
    obtain ⟨r3, hr3⟩ := List.exists_mem_of_ne_nil _ h3
    obtain ⟨r2, hr2⟩ := List.exists_mem_of_ne_nil _ h2
    obtain ⟨hm3, hc3⟩ := mem_triplesOf.mp hr3
    obtain ⟨hm2, hc2⟩ := mem_pairsOf.mp hr2
    exact hfh1 r3 (hrank15 r3 hm3) r2 (hrank15 r2 hm2) ⟨hc3, hc2⟩
  have hfh2' : ¬(2 ≤ (triplesOf cards).length) := by
    intro h2
    have hnd := nodup_triplesOf cards
    rcases hl : triplesOf cards with _ | ⟨x, _ | ⟨y, rest⟩⟩
    · rw [hl] at h2; simp at h2
    · rw [hl] at h2; simp at h2
    · rw [hl] at hnd
      have hx_nmem := (List.nodup_cons.mp hnd).1
      have hxy : x ≠ y := fun hh => hx_nmem (by rw [hh]; exact List.mem_cons_self y rest)
      have hx : x ∈ triplesOf cards := by rw [hl]; simp
      have hy : y ∈ triplesOf cards := by rw [hl]; simp
      obtain ⟨hmx, hcx⟩ := mem_triplesOf.mp hx
      obtain ⟨hmy, hcy⟩ := mem_triplesOf.mp hy
      exact hfh2 x (hrank15 x hmx) y (hrank15 y hmy) hxy ⟨hcx, hcy⟩
  refine ⟨?_, by decide, ?_⟩
  · unfold evaluate_hand
    rw [hfr, hsh]
    rw [if_neg (by simp), if_neg (by simp), if_neg (by rw [hfours]; simp),
      if_neg hfh1', if_neg hfh2', if_neg (by simp), if_pos (by omega)]
  · intro tb
    simp [compare_hands, HandRank.val, cmpTiebreakers]

/--
Witness for C9: the wheel hand A, 2, 3, 4, 5, 9, J of mixed suits evaluates
to the 5-high straight, below the 10-high straight and above high cards.
-/
theorem C9_witness :
    evaluate_hand wheelCards = (HandRank.STRAIGHT, [5]) ∧
    compare_hands (HandRank.STRAIGHT, [5]) (HandRank.STRAIGHT, [10]) = -1 ∧
    (∀ tb : List ℕ, compare_hands (HandRank.STRAIGHT, [5]) (HandRank.HIGH_CARD, tb) = 1) :=
  C9_wheel_straight_evaluates_to_five_high wheelCards (by decide) (by decide) (by decide)
    (by decide) (by decide) (by decide) (by decide) (by decide) (by decide) (by decide)
    (by decide)

/-- Distinct cards of one suit have distinct ranks. -/
theorem nodup_suit_ranks {cards : List Card} (h : cards.Nodup) (s : ℕ) :
    ((cards.filter (fun c => c.suit = s)).map Card.rank).Nodup := by
  refine List.Nodup.map_on ?_ (h.filter _)
  intro x hx y hy hxy
  have hxs := (List.mem_filter.mp hx).2
  have hys := (List.mem_filter.mp hy).2
  simp only [decide_eq_true_eq] at hxs hys
  cases x
  cases y
  simp only at hxy hxs hys
  simp [hxy, hxs, hys]

/-- A successful flush check exhibits a suit with at least 5 cards whose top
five ranks are the result. -/
theorem check_flush_some_elim {cards : List Card} {fr : List ℕ}
    (h : check_flush cards = some fr) :
    ∃ s, 5 ≤ suitCount cards s ∧
      fr = (sortDesc ((cards.filter (fun c => c.suit = s)).map Card.rank)).take 5 := by
  rw [check_flush] at h
  cases hf : (dedupFirst (cards.map Card.suit)).find? (fun s => 5 ≤ suitCount cards s) with
  | none => rw [hf] at h; simp at h
  | some s =>
      rw [hf] at h
      have hp := List.find?_some hf
      simp only [decide_eq_true_eq] at hp
      simp only [Option.some.injEq] at h
      exact ⟨s, hp, h.symm⟩

/-- With at most 7 cards, a suit holding at least 5 of them is the suit the
flush check finds (no second suit can qualify). -/
theorem check_flush_eq_some {cards : List Card} {s0 : ℕ}
    (hlen : cards.length ≤ 7) (h5 : 5 ≤ suitCount cards s0) :
    check_flush cards =
      some ((sortDesc ((cards.filter (fun c => c.suit = s0)).map Card.rank)).take 5) := by
  have hmem : s0 ∈ dedupFirst (cards.map Card.suit) := by
    rw [mem_dedupFirst]
    have hne : cards.filter (fun c => c.suit = s0) ≠ [] := by
      intro hnil
      rw [suitCount, hnil] at h5
      simp at h5
    obtain ⟨c, hc⟩ := List.exists_mem_of_ne_nil _ hne
    have hcf := List.mem_filter.mp hc
    rw [List.mem_map]
    exact ⟨c, hcf.1, by simpa using hcf.2⟩
  cases hf : (dedupFirst (cards.map Card.suit)).find? (fun s => 5 ≤ suitCount cards s) with
  | none =>
      rw [List.find?_eq_none] at hf
      have := hf s0 hmem
      simp only [decide_eq_true_eq] at this
      omega
  | some s =>
      have hps : 5 ≤ suitCount cards s := by
        have := List.find?_some hf
        simpa using this
      have hss : s = s0 := by
        by_contra hne
        have := suitCount_add_suitCount_le cards hne
        omega
      rw [check_flush, hf, hss]

/-- In a hand of distinct cards with ranks at most 14, a suit whose cards
cover the ranks 14, 13, 12, 11, 10 has exactly those as its top five ranks. -/
theorem flush_top_five_royal {cards : List Card} {s0 : ℕ} (hnodup : cards.Nodup)
    (hub : ∀ c ∈ cards, c.rank ≤ 14)
    (hcov : ∀ r ∈ ([14, 13, 12, 11, 10] : List ℕ), ∃ c ∈ cards, c.suit = s0 ∧ c.rank = r) :
    (sortDesc ((cards.filter (fun c => c.suit = s0)).map Card.rank)).take 5 =
      [14, 13, 12, 11, 10] := by
  have hnd : (sortDesc ((cards.filter (fun c => c.suit = s0)).map Card.rank)).Nodup :=
    nodup_sortDesc (nodup_suit_ranks hnodup s0)
  have hgt := sorted_gt_of_sorted_ge_nodup (sorted_sortDesc _) hnd
  have hmem : ∀ r ∈ ([14, 13, 12, 11, 10] : List ℕ),
      r ∈ sortDesc ((cards.filter (fun c => c.suit = s0)).map Card.rank) := by
    intro r hr
    obtain ⟨c, hc, hcs, hcr⟩ := hcov r hr
    rw [mem_sortDesc, List.mem_map]
    exact ⟨c, List.mem_filter.mpr ⟨hc, by simpa using hcs⟩, hcr⟩
  have hub' : ∀ x ∈ sortDesc ((cards.filter (fun c => c.suit = s0)).map Card.rank), x ≤ 14 := by
    intro x hx
    rw [mem_sortDesc, List.mem_map] at hx
    obtain ⟨c, hc, rfl⟩ := hx
    exact hub c (List.mem_filter.mp hc).1
  obtain ⟨rest, hsh⟩ := sorted_gt_top_five hgt hub'
    (hmem 14 (by simp)) (hmem 13 (by simp)) (hmem 12 (by simp))
    (hmem 11 (by simp)) (hmem 10 (by simp))
  rw [hsh]
  rfl

/-- With all ranks at most 14 and the ranks 14, 13, 12, 11, 10 all present,
the straight detection returns 14 from its very first window. -/
theorem check_straight_eq_fourteen {ranks : List ℕ}
    (hub : ∀ x ∈ ranks, x ≤ 14)
    (hcov : ∀ r ∈ ([14, 13, 12, 11, 10] : List ℕ), r ∈ ranks) :
    check_straight ranks = some 14 := by
  have hmemiff : ∀ x : ℕ, x ∈ sortDesc (dedupFirst ranks) ↔ x ∈ ranks :=
    fun x => mem_sortDesc.trans mem_dedupFirst
  have hnd : (sortDesc (dedupFirst ranks)).Nodup := nodup_sortDesc (nodup_dedupFirst _)
  have hgt := sorted_gt_of_sorted_ge_nodup (sorted_sortDesc _) hnd
  have hub' : ∀ x ∈ sortDesc (dedupFirst ranks), x ≤ 14 :=
    fun x hx => hub x ((hmemiff x).mp hx)
  obtain ⟨rest, hsh⟩ := sorted_gt_top_five hgt hub'
    ((hmemiff 14).mpr (hcov 14 (by simp))) ((hmemiff 13).mpr (hcov 13 (by simp)))
    ((hmemiff 12).mpr (hcov 12 (by simp))) ((hmemiff 11).mpr (hcov 11 (by simp)))
    ((hmemiff 10).mpr (hcov 10 (by simp)))
  simp only [check_straight]
  rw [hsh]
  rw [if_neg (by simp)]
  simp [windowScan]

/--
Claim C6.  For every 5-7 distinct-card input with valid ranks,
`evaluate_hand` returns `(ROYAL_FLUSH, [14])` if and only if some suit has
at least 5 cards in the input and that suit's cards include all of the
ranks 10, J, Q, K, A.  The implemented combination of the any-suit ace-high
straight test with the flush-rank coverage test is thus equivalent to the
stricter flush-suited condition, so an ace-high straight formed with
non-flush-suited cards never yields `ROYAL_FLUSH`.
-/
theorem C6_royal_flush_iff_flush_suit_covers_broadway (cards : List Card)
    (hnodup : cards.Nodup) (hlen5 : 5 ≤ cards.length) (hlen7 : cards.length ≤ 7)
    (hrank : ∀ c ∈ cards, 2 ≤ c.rank ∧ c.rank ≤ 14) :
    evaluate_hand cards = (HandRank.ROYAL_FLUSH, [14]) ↔
      ∃ s, 5 ≤ suitCount cards s ∧
        ∀ r ∈ ([14, 13, 12, 11, 10] : List ℕ), ∃ c ∈ cards, c.suit = s ∧ c.rank = r := by
  have hub : ∀ c ∈ cards, c.rank ≤ 14 := fun c hc => (hrank c hc).2
  constructor
  · intro h
    by_cases hg : flush_ranks cards ≠ [] ∧ straight_high cards = 14 ∧
        (∀ r ∈ ([14, 13, 12, 11, 10] : List ℕ), r ∈ flush_ranks cards)
    · obtain ⟨hne, _, hcov⟩ := hg
      have hcf : ∃ fr, check_flush cards = some fr := by
        cases hcfe : check_flush cards with
        | none => rw [flush_ranks, hcfe] at hne; simp at hne
        | some fr => exact ⟨fr, rfl⟩
      obtain ⟨fr, hcfe⟩ := hcf
      have hfrl : flush_ranks cards = fr := by rw [flush_ranks, hcfe]; rfl
      obtain ⟨s, h5, hfr_eq⟩ := check_flush_some_elim hcfe
      refine ⟨s, h5, ?_⟩
      intro r hr
      have hrfr : r ∈ fr := by rw [hfrl] at hcov; exact hcov r hr
      rw [hfr_eq] at hrfr
      have hrs := (List.take_subset 5 _) hrfr
      rw [mem_sortDesc, List.mem_map] at hrs
      obtain ⟨c, hcmem, hcr⟩ := hrs
      have hcfl := List.mem_filter.mp hcmem
      exact ⟨c, hcfl.1, by simpa using hcfl.2, hcr⟩
    · exfalso
      rw [evaluate_hand, if_neg hg] at h
      split at h
      · simp at h
      split at h
      · simp at h
      split at h
      · simp at h
      split at h
      · simp at h
      split at h
      · simp at h
      split at h
      · simp at h
      split at h
      · simp at h
      split at h
      · simp at h
      split at h
      · simp at h
      simp at h
  · rintro ⟨s0, h5, hcov⟩
    have hfrl : flush_ranks cards = [14, 13, 12, 11, 10] := by
      rw [flush_ranks, check_flush_eq_some hlen7 h5, flush_top_five_royal hnodup hub hcov]
      rfl
    have hsh : straight_high cards = 14 := by
      have hub' : ∀ x ∈ cards.map Card.rank, x ≤ 14 := by
        intro x hx
        obtain ⟨c, hc, rfl⟩ := List.mem_map.mp hx
        exact hub c hc
      have hcov' : ∀ r ∈ ([14, 13, 12, 11, 10] : List ℕ), r ∈ cards.map Card.rank := by
        intro r hr
        obtain ⟨c, hc, _, hcr⟩ := hcov r hr
        rw [List.mem_map]
        exact ⟨c, hc, hcr⟩
      rw [straight_high, check_straight_eq_fourteen hub' hcov']
      rfl
    rw [evaluate_hand, hfrl, hsh]
    rw [if_pos ⟨by simp, rfl, by decide⟩]

/--
Witness for C6: the test suite's royal-flush hand (A, K, Q, J, 10 of spades
plus two off-suit cards) evaluates to `(ROYAL_FLUSH, [14])` by the backward
direction of the equivalence.
-/
theorem C6_witness :
    evaluate_hand royalCards = (HandRank.ROYAL_FLUSH, [14]) :=
  (C6_royal_flush_iff_flush_suit_covers_broadway royalCards (by decide) (by decide)
    (by decide) (by decide)).mpr ⟨3, by decide, by decide⟩
